import Mathlib

/-!
Verification of the directive parser of the inco contract compiler
(`internal/inco/contract.go` and the keyword scan of
`internal/inco/directive.go`).

Go strings are modelled as `List Char` (the directive grammar is ASCII,
where byte indexing and character indexing coincide).  Every Go helper is
translated function-by-function; the flag-consuming `for` loops of
`parseRequire` and `parseMust` are expressed with an explicit fuel
parameter (one unit per remaining character, which the loop strictly
consumes), together with a proof that the result does not depend on the
fuel once it exceeds the length of the input.
-/

namespace Inco

/-- `Kind` from contract.go: the type of contract directive. -/
inductive Kind where
  | require : Kind
  | must : Kind
deriving DecidableEq, Repr

/-- `Directive` from contract.go: a parsed contract annotation.
Field order and meaning follow the Go struct; Go's zero values (`false`,
`nil` slices, `""`) become `false`, `[]`, `[]`. -/
structure Directive where
  kind : Kind
  nd : Bool
  ret : Bool
  log : Bool
  retExprs : List (List Char)
  vars : List (List Char)
  expr : List Char
  message : List Char
deriving DecidableEq, Repr

/-- A fresh directive of the given kind, all other fields zero-valued,
as built by `&Directive{Kind: k}` in Go. -/
def mkD (k : Kind) : Directive :=
  ⟨k, false, false, false, [], [], [], []⟩

/-- The ASCII white-space predicate used by `strings.TrimSpace` on
ASCII input. -/
def isSpace (c : Char) : Bool :=
  c = ' ' || c = '\t' || c = '\n' || c = '\x0b' || c = '\x0c' || c = '\r'

/-- `strings.TrimSpace`: strip white space from both ends. -/
def trimSpace (l : List Char) : List Char :=
  ((l.dropWhile isSpace).reverse.dropWhile isSpace).reverse

/-- `strings.LastIndex(s, ",")` for a one-character needle: the index of
the last occurrence of `c`, if any. -/
def lastIndexOf (c : Char) : List Char → Option Nat
  | [] => none
  | a :: l =>
    match lastIndexOf c l with
    | some i => some (i + 1)
    | none => if a = c then some 0 else none

/-- `strings.Split(s, sep)` for a one-character separator: split at every
occurrence, keeping empty segments (`splitAll c [] = [[]]`). -/
def splitAll (c : Char) : List Char → List (List Char)
  | [] => [[]]
  | a :: l =>
    if a = c then [] :: splitAll c l
    else
      match splitAll c l with
      | h :: r => (a :: h) :: r
      | [] => [[a]]

/-- `strings.HasSuffix`. -/
def hasSuffix (suf l : List Char) : Bool :=
  suf.isSuffixOf l

/-- The scan of `parseRetExprs` that finds the parenthesis matching the
opening one, respecting nesting and string literals.  State: current
depth, whether inside a string literal, whether the previous character
was a backslash inside a literal, and the index of the current
character. -/
def findClose : List Char → Int → Bool → Bool → Nat → Option Nat
  | [], _, _, _, _ => none
  | ch :: cs, depth, inStr, esc, i =>
    if esc then findClose cs depth inStr false (i + 1)
    else if ch = '\\' && inStr then findClose cs depth inStr true (i + 1)
    else if ch = '"' then findClose cs depth (!inStr) esc (i + 1)
    else if inStr then findClose cs depth inStr esc (i + 1)
    else if ch = '(' then findClose cs (depth + 1) inStr esc (i + 1)
    else if ch = ')' then
      if depth - 1 = 0 then some i
      else findClose cs (depth - 1) inStr esc (i + 1)
    else findClose cs depth inStr esc (i + 1)

/-- The accumulator loop of `splitTopLevelCommas`: `cur` holds the
characters of the current segment in reverse, `parts` the finished
parts. -/
def splitAux : List Char → Int → Bool → Bool → List Char → List (List Char) →
    List (List Char)
  | [], _, _, _, cur, parts =>
    if trimSpace cur.reverse = [] then parts else parts ++ [trimSpace cur.reverse]
  | ch :: cs, depth, inStr, esc, cur, parts =>
    if esc then splitAux cs depth inStr false (ch :: cur) parts
    else if ch = '\\' && inStr then splitAux cs depth inStr true (ch :: cur) parts
    else if ch = '"' then splitAux cs depth (!inStr) esc (ch :: cur) parts
    else if inStr then splitAux cs depth inStr esc (ch :: cur) parts
    else if ch = '(' || ch = '[' || ch = '\x7b' then
      splitAux cs (depth + 1) inStr esc (ch :: cur) parts
    else if ch = ')' || ch = ']' || ch = '\x7d' then
      splitAux cs (depth - 1) inStr esc (ch :: cur) parts
    else if ch = ',' then
      if depth = 0 then
        splitAux cs depth inStr esc []
          (if trimSpace cur.reverse = [] then parts else parts ++ [trimSpace cur.reverse])
      else splitAux cs depth inStr esc (ch :: cur) parts
    else splitAux cs depth inStr esc (ch :: cur) parts

/-- `splitTopLevelCommas` from contract.go: split at commas that are not
inside parentheses, brackets, braces, or string literals. -/
def splitTopLevelCommas (s : List Char) : List (List Char) :=
  splitAux s 0 false false [] []

/-- `parseRetExprs` from contract.go: parse the parenthesized expression
list after `-ret`.  Returns the expressions, the remaining text after the
closing parenthesis, and a success flag. -/
def parseRetExprs : List Char → List (List Char) × List Char × Bool
  | [] => ([], [], false)
  | c :: cs =>
    if c ≠ '(' then ([], c :: cs, false)
    else
      match findClose (c :: cs) 0 false false 0 with
      | none => ([], c :: cs, false)
      | some closeIdx =>
        if splitTopLevelCommas (((c :: cs).take closeIdx).drop 1) = [] then
          ([], (c :: cs).drop (closeIdx + 1), false)
        else
          (splitTopLevelCommas (((c :: cs).take closeIdx).drop 1),
            (c :: cs).drop (closeIdx + 1), true)

/-- The flag loop of `parseRequire` (contract.go lines 116-144), with an
explicit fuel parameter; when the fuel is exhausted the loop breaks, which
never happens for fuel larger than the length of the input (see
`requireFlagsF_fuel`). -/
def requireFlagsF : Nat → List Char → Directive → Directive × List Char
  | 0, rest, d => (d, rest)
  | n + 1, rest, d =>
    if ("-nd".toList).isPrefixOf rest then
      requireFlagsF n (trimSpace (rest.drop 3)) {d with nd := true}
    else if ("-ret".toList).isPrefixOf rest then
      if ("(".toList).isPrefixOf (trimSpace (rest.drop 4)) then
        if (parseRetExprs (trimSpace (rest.drop 4))).2.2 then
          requireFlagsF n (trimSpace (parseRetExprs (trimSpace (rest.drop 4))).2.1)
            {d with ret := true,
                    retExprs := (parseRetExprs (trimSpace (rest.drop 4))).1}
        else requireFlagsF n (trimSpace (trimSpace (rest.drop 4))) {d with ret := true}
      else requireFlagsF n (trimSpace (rest.drop 4)) {d with ret := true}
    else if ("-log".toList).isPrefixOf rest then
      requireFlagsF n (trimSpace (rest.drop 4)) {d with log := true, ret := true}
    else (d, rest)

/-- The flag loop of `parseMust` (contract.go lines 79-102): identical to
the `parseRequire` loop except that `-nd` is not recognized. -/
def mustFlagsF : Nat → List Char → Directive → Directive × List Char
  | 0, rest, d => (d, rest)
  | n + 1, rest, d =>
    if ("-ret".toList).isPrefixOf rest then
      if ("(".toList).isPrefixOf (trimSpace (rest.drop 4)) then
        if (parseRetExprs (trimSpace (rest.drop 4))).2.2 then
          mustFlagsF n (trimSpace (parseRetExprs (trimSpace (rest.drop 4))).2.1)
            {d with ret := true,
                    retExprs := (parseRetExprs (trimSpace (rest.drop 4))).1}
        else mustFlagsF n (trimSpace (trimSpace (rest.drop 4))) {d with ret := true}
      else mustFlagsF n (trimSpace (rest.drop 4)) {d with ret := true}
    else if ("-log".toList).isPrefixOf rest then
      mustFlagsF n (trimSpace (rest.drop 4)) {d with log := true, ret := true}
    else (d, rest)

/-- The `parseRequire` flag loop at its canonical fuel. -/
def requireFlags (rest : List Char) (d : Directive) : Directive × List Char :=
  requireFlagsF (rest.length + 1) rest d

/-- The `parseMust` flag loop at its canonical fuel. -/
def mustFlags (rest : List Char) (d : Directive) : Directive × List Char :=
  mustFlagsF (rest.length + 1) rest d

/-- The `-nd` variable-list loop of `parseRequire` (lines 151-159):
split at commas, trim each entry, append the non-empty ones. -/
def ndVarsLoop (rest : List Char) : List (List Char) :=
  (splitAll ',' rest).foldl
    (fun acc v => if trimSpace v = [] then acc else acc ++ [trimSpace v]) []

/-- The part of `parseRequire` after the flag loop (lines 146-172). -/
def requireTail (d : Directive) (rest : List Char) : Directive :=
  if rest = [] then d
  else if d.nd then {d with vars := ndVarsLoop rest}
  else
    match lastIndexOf ',' rest with
    | some idx =>
      if 2 ≤ (trimSpace (rest.drop (idx + 1))).length ∧
          (trimSpace (rest.drop (idx + 1))).head? = some '"' ∧
          (trimSpace (rest.drop (idx + 1))).getLast? = some '"' then
        {d with expr := trimSpace (rest.take idx),
                message := ((trimSpace (rest.drop (idx + 1))).drop 1).dropLast}
      else {d with expr := rest}
    | none => {d with expr := rest}

/-- `parseRequire` from contract.go. -/
def parseRequire (rest0 : List Char) : Directive :=
  if trimSpace rest0 = [] then mkD Kind.require
  else
    requireTail (requireFlags (trimSpace rest0) (mkD Kind.require)).1
      (requireFlags (trimSpace rest0) (mkD Kind.require)).2

/-- `parseMust` from contract.go: flags only, leftover text ignored. -/
def parseMust (rest0 : List Char) : Directive :=
  (mustFlags (trimSpace rest0) (mkD Kind.must)).1

/-- `strings.TrimSuffix(s, "*\u002f")`: drop a trailing close marker. -/
def trimCloseMarker (l : List Char) : List Char :=
  if hasSuffix ("*/".toList) l then l.take (l.length - 2) else l

/-- The comment-marker stripping of `ParseDirective` (lines 50-58). -/
def stripMarkers (text : List Char) : List Char :=
  if ("//".toList).isPrefixOf (trimSpace text) then
    trimSpace ((trimSpace text).drop 2)
  else if ("/*".toList).isPrefixOf (trimSpace text) then
    trimSpace (trimCloseMarker ((trimSpace text).drop 2))
  else trimSpace text

/-- `ParseDirective` from contract.go: parse a Go comment text into a
`Directive`; `none` when the comment does not contain a directive. -/
def ParseDirective (text : List Char) : Option Directive :=
  if ¬ ("@".toList).isPrefixOf (stripMarkers text) then none
  else if ("@require".toList).isPrefixOf (stripMarkers text) then
    some (parseRequire ((stripMarkers text).drop 8))
  else if ("@must".toList).isPrefixOf (stripMarkers text) then
    some (parseMust ((stripMarkers text).drop 5))
  else none

/-! ### Basic facts about the string helpers -/

theorem isPrefixOf_cons₂ (a b : Char) (as bs : List Char) :
    List.isPrefixOf (a :: as) (b :: bs) = ((a == b) && List.isPrefixOf as bs) := rfl

theorem isPrefixOf_length_le :
    ∀ {l₁ l₂ : List Char}, l₁.isPrefixOf l₂ = true → l₁.length ≤ l₂.length := by
  intro l₁
  induction l₁ with
  | nil => intro l₂ _; exact Nat.zero_le _
  | cons a as ih =>
    intro l₂ h
    cases l₂ with
    | nil => simp [List.isPrefixOf] at h
    | cons b bs =>
      rw [isPrefixOf_cons₂, Bool.and_eq_true] at h
      simpa using Nat.succ_le_succ (ih h.2)

theorem length_dropWhile_le (p : Char → Bool) (l : List Char) :
    (l.dropWhile p).length ≤ l.length := by
  induction l with
  | nil => simp
  | cons a t ih =>
    rw [List.dropWhile_cons]
    split
    · exact Nat.le_succ_of_le ih
    · simp

theorem dropWhile_self_or_lt (p : Char → Bool) (l : List Char) :
    l.dropWhile p = l ∨ (l.dropWhile p).length < l.length := by
  cases l with
  | nil => exact Or.inl rfl
  | cons a t =>
    rw [List.dropWhile_cons]
    split
    · exact Or.inr (Nat.lt_succ_of_le (length_dropWhile_le p t))
    · exact Or.inl rfl

theorem trimSpace_nil : trimSpace [] = [] := rfl

theorem trimSpace_cons_space {a : Char} {l : List Char} (h : isSpace a = true) :
    trimSpace (a :: l) = trimSpace l := by
  unfold trimSpace
  rw [List.dropWhile_cons, if_pos h]

theorem trimSpace_length_le (l : List Char) : (trimSpace l).length ≤ l.length := by
  unfold trimSpace
  calc ((l.dropWhile isSpace).reverse.dropWhile isSpace).reverse.length
      = ((l.dropWhile isSpace).reverse.dropWhile isSpace).length := by
        rw [List.length_reverse]
    _ ≤ (l.dropWhile isSpace).reverse.length := length_dropWhile_le _ _
    _ = (l.dropWhile isSpace).length := by rw [List.length_reverse]
    _ ≤ l.length := length_dropWhile_le _ _

theorem getLast?_append_right {α : Type} (t u : List α) (hu : u ≠ []) :
    (t ++ u).getLast? = u.getLast? := by
  rw [← List.head?_reverse, ← List.head?_reverse, List.reverse_append]
  cases hr : u.reverse with
  | nil => exact absurd (List.reverse_eq_nil_iff.mp hr) hu
  | cons b r' => simp

theorem trimSpace_eq_self {l : List Char}
    (h1 : ∀ c, l.head? = some c → isSpace c = false)
    (h2 : ∀ c, l.getLast? = some c → isSpace c = false) :
    trimSpace l = l := by
  cases l with
  | nil => rfl
  | cons a t =>
    unfold trimSpace
    rw [List.dropWhile_cons, if_neg (by simp [h1 a rfl])]
    cases hr : (a :: t).reverse with
    | nil => simp at hr
    | cons b r' =>
      have hb : (a :: t).getLast? = some b := by
        rw [← List.head?_reverse, hr]; rfl
      rw [List.dropWhile_cons, if_neg (by simp [h2 b hb]), ← hr,
        List.reverse_reverse]

theorem trimSpace_self_head {l : List Char} {c : Char}
    (h : trimSpace l = l) (hc : l.head? = some c) : isSpace c = false := by
  by_contra hs
  rw [Bool.not_eq_false] at hs
  cases l with
  | nil => simp at hc
  | cons a t =>
    have ha : a = c := by simpa using hc
    subst ha
    have h1 : trimSpace (a :: t) = trimSpace t := trimSpace_cons_space hs
    have h2 : (trimSpace t).length ≤ t.length := trimSpace_length_le t
    rw [h] at h1
    have := congrArg List.length h1
    simp at this
    omega

theorem trimSpace_self_getLast {l : List Char} {c : Char}
    (h : trimSpace l = l) (hc : l.getLast? = some c) : isSpace c = false := by
  by_contra hs
  rw [Bool.not_eq_false] at hs
  have hrev : l.reverse.head? = some c := by rw [List.head?_reverse]; exact hc
  cases hr : l.reverse with
  | nil => rw [hr] at hrev; simp at hrev
  | cons b r' =>
    have hb : b = c := by rw [hr] at hrev; simpa using hrev
    subst hb
    -- the right-hand dropWhile of `trimSpace` strictly shrinks `l`
    have hlen : (trimSpace l).length < l.length := by
      unfold trimSpace
      rcases dropWhile_self_or_lt isSpace l with heq | hlt
      case inr =>
        calc ((l.dropWhile isSpace).reverse.dropWhile isSpace).reverse.length
            ≤ (l.dropWhile isSpace).length := by
              rw [List.length_reverse]
              calc ((l.dropWhile isSpace).reverse.dropWhile isSpace).length
                  ≤ (l.dropWhile isSpace).reverse.length := length_dropWhile_le _ _
                _ = (l.dropWhile isSpace).length := List.length_reverse _
          _ < l.length := hlt
      case inl =>
        rw [heq, hr, List.dropWhile_cons, if_pos hs]
        calc (r'.dropWhile isSpace).reverse.length
            = (r'.dropWhile isSpace).length := List.length_reverse _
          _ ≤ r'.length := length_dropWhile_le _ _
          _ < l.length := by
            have : l.reverse.length = r'.length + 1 := by rw [hr]; rfl
            rw [List.length_reverse] at this
            omega
    rw [h] at hlen
    omega

/-! ### The flag loops do not depend on the fuel once it exceeds the input -/

theorem parseRetExprs_ok_length (s : List Char) (h : (parseRetExprs s).2.2 = true) :
    (parseRetExprs s).2.1.length < s.length := by
  cases s with
  | nil => simp [parseRetExprs] at h
  | cons c cs =>
    by_cases hc : c = '('
    case neg =>
      have heq : parseRetExprs (c :: cs) = ([], c :: cs, false) := by
        simp only [parseRetExprs]
        rw [if_pos hc]
      rw [heq] at h; simp at h
    case pos =>
      subst hc
      cases hf : findClose ('(' :: cs) 0 false false 0 with
      | none =>
        have heq : parseRetExprs ('(' :: cs) = ([], '(' :: cs, false) := by
          simp only [parseRetExprs]
          rw [if_neg (by simp), hf]
        rw [heq] at h; simp at h
      | some k =>
        by_cases hsp : splitTopLevelCommas ((('(' :: cs).take k).drop 1) = []
        · have heq : parseRetExprs ('(' :: cs) = ([], ('(' :: cs).drop (k + 1), false) := by
            simp only [parseRetExprs]
            rw [if_neg (by simp), hf]
            dsimp only
            rw [if_pos hsp]
          rw [heq] at h; simp at h
        · have heq : parseRetExprs ('(' :: cs) =
              (splitTopLevelCommas ((('(' :: cs).take k).drop 1),
                ('(' :: cs).drop (k + 1), true) := by
            simp only [parseRetExprs]
            rw [if_neg (by simp), hf]
            dsimp only
            rw [if_neg hsp]
          rw [heq]
          simp only [List.length_drop, List.length_cons]
          omega

theorem requireFlagsF_break (n : Nat) (rest : List Char) (d : Directive)
    (h1 : ("-nd".toList).isPrefixOf rest = false)
    (h2 : ("-ret".toList).isPrefixOf rest = false)
    (h3 : ("-log".toList).isPrefixOf rest = false) :
    requireFlagsF (n + 1) rest d = (d, rest) := by
  simp only [requireFlagsF]
  rw [if_neg (by rw [h1]; decide), if_neg (by rw [h2]; decide), if_neg (by rw [h3]; decide)]

theorem mustFlagsF_break (n : Nat) (rest : List Char) (d : Directive)
    (h2 : ("-ret".toList).isPrefixOf rest = false)
    (h3 : ("-log".toList).isPrefixOf rest = false) :
    mustFlagsF (n + 1) rest d = (d, rest) := by
  simp only [mustFlagsF]
  rw [if_neg (by rw [h2]; decide), if_neg (by rw [h3]; decide)]

theorem requireFlagsF_fuel :
    ∀ (k : Nat) (rest : List Char) (n m : Nat) (d : Directive),
      rest.length ≤ k → rest.length < n → rest.length < m →
      requireFlagsF n rest d = requireFlagsF m rest d := by
  intro k
  induction k with
  | zero =>
    intro rest n m d hk hn hm
    have hrest : rest = [] := List.length_eq_zero.mp (Nat.le_zero.mp hk)
    subst hrest
    obtain ⟨n', rfl⟩ : ∃ n', n = n' + 1 := ⟨n - 1, by omega⟩
    obtain ⟨m', rfl⟩ : ∃ m', m = m' + 1 := ⟨m - 1, by omega⟩
    rw [requireFlagsF_break n' _ _ (by decide) (by decide) (by decide),
      requireFlagsF_break m' _ _ (by decide) (by decide) (by decide)]
  | succ k ih =>
    intro rest n m d hk hn hm
    obtain ⟨n', rfl⟩ : ∃ n', n = n' + 1 := ⟨n - 1, by omega⟩
    obtain ⟨m', rfl⟩ : ∃ m', m = m' + 1 := ⟨m - 1, by omega⟩
    simp only [requireFlagsF]
    by_cases h1 : ("-nd".toList).isPrefixOf rest = true
    · rw [if_pos h1, if_pos h1]
      have hlen3 : 3 ≤ rest.length := by
        have := isPrefixOf_length_le h1
        simpa using this
      have hd : (trimSpace (rest.drop 3)).length ≤ rest.length - 3 :=
        le_trans (trimSpace_length_le _) (by simp [List.length_drop])
      exact ih _ _ _ _ (by omega) (by omega) (by omega)
    · rw [if_neg h1, if_neg h1]
      by_cases h2 : ("-ret".toList).isPrefixOf rest = true
      · rw [if_pos h2, if_pos h2]
        have hlen4 : 4 ≤ rest.length := by
          have := isPrefixOf_length_le h2
          simpa using this
        have hafter : (trimSpace (rest.drop 4)).length ≤ rest.length - 4 :=
          le_trans (trimSpace_length_le _) (by simp [List.length_drop])
        by_cases h3 : ("(".toList).isPrefixOf (trimSpace (rest.drop 4)) = true
        · rw [if_pos h3, if_pos h3]
          by_cases h4 : (parseRetExprs (trimSpace (rest.drop 4))).2.2 = true
          · rw [if_pos h4, if_pos h4]
            have hrem := parseRetExprs_ok_length _ h4
            have hrem2 : (trimSpace (parseRetExprs (trimSpace (rest.drop 4))).2.1).length
                ≤ (parseRetExprs (trimSpace (rest.drop 4))).2.1.length :=
              trimSpace_length_le _
            exact ih _ _ _ _ (by omega) (by omega) (by omega)
          · rw [if_neg h4, if_neg h4]
            have hd2 : (trimSpace (trimSpace (rest.drop 4))).length ≤ rest.length - 4 :=
              le_trans (trimSpace_length_le _) hafter
            exact ih _ _ _ _ (by omega) (by omega) (by omega)
        · rw [if_neg h3, if_neg h3]
          exact ih _ _ _ _ (by omega) (by omega) (by omega)
      · rw [if_neg h2, if_neg h2]
        by_cases h5 : ("-log".toList).isPrefixOf rest = true
        · rw [if_pos h5, if_pos h5]
          have hlen4 : 4 ≤ rest.length := by
            have := isPrefixOf_length_le h5
            simpa using this
          have hd3 : (trimSpace (rest.drop 4)).length ≤ rest.length - 4 :=
            le_trans (trimSpace_length_le _) (by simp [List.length_drop])
          exact ih _ _ _ _ (by omega) (by omega) (by omega)
        · rw [if_neg h5, if_neg h5]

theorem mustFlagsF_fuel :
    ∀ (k : Nat) (rest : List Char) (n m : Nat) (d : Directive),
      rest.length ≤ k → rest.length < n → rest.length < m →
      mustFlagsF n rest d = mustFlagsF m rest d := by
  intro k
  induction k with
  | zero =>
    intro rest n m d hk hn hm
    have hrest : rest = [] := List.length_eq_zero.mp (Nat.le_zero.mp hk)
    subst hrest
    obtain ⟨n', rfl⟩ : ∃ n', n = n' + 1 := ⟨n - 1, by omega⟩
    obtain ⟨m', rfl⟩ : ∃ m', m = m' + 1 := ⟨m - 1, by omega⟩
    rw [mustFlagsF_break n' _ _ (by decide) (by decide),
      mustFlagsF_break m' _ _ (by decide) (by decide)]
  | succ k ih =>
    intro rest n m d hk hn hm
    obtain ⟨n', rfl⟩ : ∃ n', n = n' + 1 := ⟨n - 1, by omega⟩
    obtain ⟨m', rfl⟩ : ∃ m', m = m' + 1 := ⟨m - 1, by omega⟩
    simp only [mustFlagsF]
    by_cases h2 : ("-ret".toList).isPrefixOf rest = true
    · rw [if_pos h2, if_pos h2]
      have hlen4 : 4 ≤ rest.length := by
        have := isPrefixOf_length_le h2
        simpa using this
      have hafter : (trimSpace (rest.drop 4)).length ≤ rest.length - 4 :=
        le_trans (trimSpace_length_le _) (by simp [List.length_drop])
      by_cases h3 : ("(".toList).isPrefixOf (trimSpace (rest.drop 4)) = true
      · rw [if_pos h3, if_pos h3]
        by_cases h4 : (parseRetExprs (trimSpace (rest.drop 4))).2.2 = true
        · rw [if_pos h4, if_pos h4]
          have hrem := parseRetExprs_ok_length _ h4
          have hrem2 : (trimSpace (parseRetExprs (trimSpace (rest.drop 4))).2.1).length
              ≤ (parseRetExprs (trimSpace (rest.drop 4))).2.1.length :=
            trimSpace_length_le _
          exact ih _ _ _ _ (by omega) (by omega) (by omega)
        · rw [if_neg h4, if_neg h4]
          have hd2 : (trimSpace (trimSpace (rest.drop 4))).length ≤ rest.length - 4 :=
            le_trans (trimSpace_length_le _) hafter
          exact ih _ _ _ _ (by omega) (by omega) (by omega)
      · rw [if_neg h3, if_neg h3]
        exact ih _ _ _ _ (by omega) (by omega) (by omega)
    · rw [if_neg h2, if_neg h2]
      by_cases h5 : ("-log".toList).isPrefixOf rest = true
      · rw [if_pos h5, if_pos h5]
        have hlen4 : 4 ≤ rest.length := by
          have := isPrefixOf_length_le h5
          simpa using this
        have hd3 : (trimSpace (rest.drop 4)).length ≤ rest.length - 4 :=
          le_trans (trimSpace_length_le _) (by simp [List.length_drop])
        exact ih _ _ _ _ (by omega) (by omega) (by omega)
      · rw [if_neg h5, if_neg h5]

/-! ### One-step unfolding laws for the canonical-fuel flag loops -/

theorem requireFlags_nd {rest : List Char} (d : Directive)
    (h : ("-nd".toList).isPrefixOf rest = true) :
    requireFlags rest d = requireFlags (trimSpace (rest.drop 3)) {d with nd := true} := by
  have hlen3 : 3 ≤ rest.length := by simpa using isPrefixOf_length_le h
  have hd : (trimSpace (rest.drop 3)).length ≤ rest.length - 3 :=
    le_trans (trimSpace_length_le _) (by simp [List.length_drop])
  unfold requireFlags
  calc requireFlagsF (rest.length + 1) rest d
      = requireFlagsF rest.length (trimSpace (rest.drop 3)) {d with nd := true} := by
        simp only [requireFlagsF]
        rw [if_pos h]
    _ = requireFlagsF ((trimSpace (rest.drop 3)).length + 1) (trimSpace (rest.drop 3))
          {d with nd := true} :=
        requireFlagsF_fuel (trimSpace (rest.drop 3)).length _ _ _ _ le_rfl
          (by omega) (by omega)

theorem requireFlags_ret_bare {rest : List Char} (d : Directive)
    (h1 : ("-nd".toList).isPrefixOf rest = false)
    (h2 : ("-ret".toList).isPrefixOf rest = true)
    (h3 : ("(".toList).isPrefixOf (trimSpace (rest.drop 4)) = false) :
    requireFlags rest d = requireFlags (trimSpace (rest.drop 4)) {d with ret := true} := by
  have hlen4 : 4 ≤ rest.length := by simpa using isPrefixOf_length_le h2
  have hd : (trimSpace (rest.drop 4)).length ≤ rest.length - 4 :=
    le_trans (trimSpace_length_le _) (by simp [List.length_drop])
  unfold requireFlags
  calc requireFlagsF (rest.length + 1) rest d
      = requireFlagsF rest.length (trimSpace (rest.drop 4)) {d with ret := true} := by
        simp only [requireFlagsF]
        rw [if_neg (by rw [h1]; decide), if_pos h2, if_neg (by rw [h3]; decide)]
    _ = requireFlagsF ((trimSpace (rest.drop 4)).length + 1) (trimSpace (rest.drop 4))
          {d with ret := true} :=
        requireFlagsF_fuel (trimSpace (rest.drop 4)).length _ _ _ _ le_rfl
          (by omega) (by omega)

theorem requireFlags_ret_ok {rest : List Char} (d : Directive)
    (h1 : ("-nd".toList).isPrefixOf rest = false)
    (h2 : ("-ret".toList).isPrefixOf rest = true)
    (h3 : ("(".toList).isPrefixOf (trimSpace (rest.drop 4)) = true)
    (h4 : (parseRetExprs (trimSpace (rest.drop 4))).2.2 = true) :
    requireFlags rest d =
      requireFlags (trimSpace (parseRetExprs (trimSpace (rest.drop 4))).2.1)
        {d with ret := true,
                retExprs := (parseRetExprs (trimSpace (rest.drop 4))).1} := by
  have hlen4 : 4 ≤ rest.length := by simpa using isPrefixOf_length_le h2
  have hafter : (trimSpace (rest.drop 4)).length ≤ rest.length - 4 :=
    le_trans (trimSpace_length_le _) (by simp [List.length_drop])
  have hrem := parseRetExprs_ok_length _ h4
  have hrem2 : (trimSpace (parseRetExprs (trimSpace (rest.drop 4))).2.1).length
      ≤ (parseRetExprs (trimSpace (rest.drop 4))).2.1.length := trimSpace_length_le _
  unfold requireFlags
  calc requireFlagsF (rest.length + 1) rest d
      = requireFlagsF rest.length (trimSpace (parseRetExprs (trimSpace (rest.drop 4))).2.1)
          {d with ret := true,
                  retExprs := (parseRetExprs (trimSpace (rest.drop 4))).1} := by
        simp only [requireFlagsF]
        rw [if_neg (by rw [h1]; decide), if_pos h2, if_pos h3, if_pos h4]
    _ = requireFlagsF
          ((trimSpace (parseRetExprs (trimSpace (rest.drop 4))).2.1).length + 1)
          (trimSpace (parseRetExprs (trimSpace (rest.drop 4))).2.1)
          {d with ret := true,
                  retExprs := (parseRetExprs (trimSpace (rest.drop 4))).1} :=
        requireFlagsF_fuel (trimSpace (parseRetExprs (trimSpace (rest.drop 4))).2.1).length
          _ _ _ _ le_rfl (by omega) (by omega)

theorem requireFlags_log {rest : List Char} (d : Directive)
    (h1 : ("-nd".toList).isPrefixOf rest = false)
    (h2 : ("-ret".toList).isPrefixOf rest = false)
    (h5 : ("-log".toList).isPrefixOf rest = true) :
    requireFlags rest d =
      requireFlags (trimSpace (rest.drop 4)) {d with log := true, ret := true} := by
  have hlen4 : 4 ≤ rest.length := by simpa using isPrefixOf_length_le h5
  have hd : (trimSpace (rest.drop 4)).length ≤ rest.length - 4 :=
    le_trans (trimSpace_length_le _) (by simp [List.length_drop])
  unfold requireFlags
  calc requireFlagsF (rest.length + 1) rest d
      = requireFlagsF rest.length (trimSpace (rest.drop 4))
          {d with log := true, ret := true} := by
        simp only [requireFlagsF]
        rw [if_neg (by rw [h1]; decide), if_neg (by rw [h2]; decide), if_pos h5]
    _ = requireFlagsF ((trimSpace (rest.drop 4)).length + 1) (trimSpace (rest.drop 4))
          {d with log := true, ret := true} :=
        requireFlagsF_fuel (trimSpace (rest.drop 4)).length _ _ _ _ le_rfl
          (by omega) (by omega)

theorem requireFlags_done {rest : List Char} (d : Directive)
    (h1 : ("-nd".toList).isPrefixOf rest = false)
    (h2 : ("-ret".toList).isPrefixOf rest = false)
    (h3 : ("-log".toList).isPrefixOf rest = false) :
    requireFlags rest d = (d, rest) :=
  requireFlagsF_break rest.length rest d h1 h2 h3

/-! ### Invariants of the flag loops -/

theorem requireFlagsF_inv :
    ∀ (n : Nat) (rest : List Char) (d : Directive),
      (requireFlagsF n rest d).1.kind = d.kind ∧
      (requireFlagsF n rest d).1.vars = d.vars ∧
      (requireFlagsF n rest d).1.expr = d.expr ∧
      (requireFlagsF n rest d).1.message = d.message ∧
      ((d.log = true → d.ret = true) →
        ((requireFlagsF n rest d).1.log = true → (requireFlagsF n rest d).1.ret = true)) := by
  intro n
  induction n with
  | zero => intro rest d; exact ⟨rfl, rfl, rfl, rfl, fun h => h⟩
  | succ n ih =>
    intro rest d
    simp only [requireFlagsF]
    by_cases h1 : ("-nd".toList).isPrefixOf rest = true
    · rw [if_pos h1]
      rcases ih (trimSpace (rest.drop 3)) {d with nd := true} with ⟨k1, k2, k3, k4, k5⟩
      exact ⟨k1, k2, k3, k4, fun hd => k5 hd⟩
    · rw [if_neg h1]
      by_cases h2 : ("-ret".toList).isPrefixOf rest = true
      · rw [if_pos h2]
        by_cases h3 : ("(".toList).isPrefixOf (trimSpace (rest.drop 4)) = true
        · rw [if_pos h3]
          by_cases h4 : (parseRetExprs (trimSpace (rest.drop 4))).2.2 = true
          · rw [if_pos h4]
            rcases ih (trimSpace (parseRetExprs (trimSpace (rest.drop 4))).2.1)
                {d with ret := true,
                        retExprs := (parseRetExprs (trimSpace (rest.drop 4))).1}
              with ⟨k1, k2, k3, k4, k5⟩
            exact ⟨k1, k2, k3, k4, fun _ => k5 (fun _ => rfl)⟩
          · rw [if_neg h4]
            rcases ih (trimSpace (trimSpace (rest.drop 4))) {d with ret := true}
              with ⟨k1, k2, k3, k4, k5⟩
            exact ⟨k1, k2, k3, k4, fun _ => k5 (fun _ => rfl)⟩
        · rw [if_neg h3]
          rcases ih (trimSpace (rest.drop 4)) {d with ret := true}
            with ⟨k1, k2, k3, k4, k5⟩
          exact ⟨k1, k2, k3, k4, fun _ => k5 (fun _ => rfl)⟩
      · rw [if_neg h2]
        by_cases h5 : ("-log".toList).isPrefixOf rest = true
        · rw [if_pos h5]
          rcases ih (trimSpace (rest.drop 4)) {d with log := true, ret := true}
            with ⟨k1, k2, k3, k4, k5⟩
          exact ⟨k1, k2, k3, k4, fun _ => k5 (fun _ => rfl)⟩
        · rw [if_neg h5]
          exact ⟨rfl, rfl, rfl, rfl, fun h => h⟩

theorem mustFlagsF_inv :
    ∀ (n : Nat) (rest : List Char) (d : Directive),
      (mustFlagsF n rest d).1.kind = d.kind ∧
      (mustFlagsF n rest d).1.vars = d.vars ∧
      (mustFlagsF n rest d).1.expr = d.expr ∧
      (mustFlagsF n rest d).1.message = d.message ∧
      ((d.log = true → d.ret = true) →
        ((mustFlagsF n rest d).1.log = true → (mustFlagsF n rest d).1.ret = true)) := by
  intro n
  induction n with
  | zero => intro rest d; exact ⟨rfl, rfl, rfl, rfl, fun h => h⟩
  | succ n ih =>
    intro rest d
    simp only [mustFlagsF]
    by_cases h2 : ("-ret".toList).isPrefixOf rest = true
    · rw [if_pos h2]
      by_cases h3 : ("(".toList).isPrefixOf (trimSpace (rest.drop 4)) = true
      · rw [if_pos h3]
        by_cases h4 : (parseRetExprs (trimSpace (rest.drop 4))).2.2 = true
        · rw [if_pos h4]
          rcases ih (trimSpace (parseRetExprs (trimSpace (rest.drop 4))).2.1)
              {d with ret := true,
                      retExprs := (parseRetExprs (trimSpace (rest.drop 4))).1}
            with ⟨k1, k2, k3, k4, k5⟩
          exact ⟨k1, k2, k3, k4, fun _ => k5 (fun _ => rfl)⟩
        · rw [if_neg h4]
          rcases ih (trimSpace (trimSpace (rest.drop 4))) {d with ret := true}
            with ⟨k1, k2, k3, k4, k5⟩
          exact ⟨k1, k2, k3, k4, fun _ => k5 (fun _ => rfl)⟩
      · rw [if_neg h3]
        rcases ih (trimSpace (rest.drop 4)) {d with ret := true}
          with ⟨k1, k2, k3, k4, k5⟩
        exact ⟨k1, k2, k3, k4, fun _ => k5 (fun _ => rfl)⟩
    · rw [if_neg h2]
      by_cases h5 : ("-log".toList).isPrefixOf rest = true
      · rw [if_pos h5]
        rcases ih (trimSpace (rest.drop 4)) {d with log := true, ret := true}
          with ⟨k1, k2, k3, k4, k5⟩
        exact ⟨k1, k2, k3, k4, fun _ => k5 (fun _ => rfl)⟩
      · rw [if_neg h5]
        exact ⟨rfl, rfl, rfl, rfl, fun h => h⟩

/-! ### Structure of `parseRequire` and `parseMust` results -/

theorem isPrefixOf_head {a : Char} {as l : List Char}
    (h : (a :: as).isPrefixOf l = true) : l.head? = some a := by
  cases l with
  | nil => simp [List.isPrefixOf] at h
  | cons b bs =>
    rw [isPrefixOf_cons₂, Bool.and_eq_true, beq_iff_eq] at h
    rw [h.1]
    rfl

theorem isPrefixOf_append_self (p s : List Char) : p.isPrefixOf (p ++ s) = true := by
  induction p with
  | nil => simp [List.isPrefixOf]
  | cons a as ih => simp [isPrefixOf_cons₂, ih]

theorem requireTail_keeps (d : Directive) (rest : List Char) :
    (requireTail d rest).kind = d.kind ∧ (requireTail d rest).nd = d.nd ∧
    (requireTail d rest).ret = d.ret ∧ (requireTail d rest).log = d.log ∧
    (requireTail d rest).retExprs = d.retExprs := by
  unfold requireTail
  repeat' split
  all_goals exact ⟨rfl, rfl, rfl, rfl, rfl⟩

theorem requireTail_modes (d : Directive) (rest : List Char)
    (hv : d.vars = []) (he : d.expr = []) :
    (requireTail d rest).vars = [] ∨ (requireTail d rest).expr = [] := by
  unfold requireTail
  by_cases h0 : rest = []
  · rw [if_pos h0]; exact Or.inl hv
  · rw [if_neg h0]
    by_cases hnd : d.nd = true
    · rw [if_pos hnd]; exact Or.inr he
    · rw [if_neg hnd]
      cases hL : lastIndexOf ',' rest with
      | none => exact Or.inl hv
      | some idx =>
        dsimp only
        split
        · exact Or.inl hv
        · exact Or.inl hv

theorem parseRequire_log_ret (s : List Char) :
    (parseRequire s).log = true → (parseRequire s).ret = true := by
  unfold parseRequire requireFlags
  split
  · intro h; exact absurd h (by decide)
  · intro h
    have hkeep := requireTail_keeps
      (requireFlagsF ((trimSpace s).length + 1) (trimSpace s) (mkD Kind.require)).1
      (requireFlagsF ((trimSpace s).length + 1) (trimSpace s) (mkD Kind.require)).2
    have hinv := requireFlagsF_inv ((trimSpace s).length + 1) (trimSpace s) (mkD Kind.require)
    rw [hkeep.2.2.2.1] at h
    rw [hkeep.2.2.1]
    exact hinv.2.2.2.2 (fun hx => hx) h

theorem parseRequire_modes (s : List Char) :
    (parseRequire s).vars = [] ∨ (parseRequire s).expr = [] := by
  unfold parseRequire requireFlags
  split
  · exact Or.inl rfl
  · have hinv := requireFlagsF_inv ((trimSpace s).length + 1) (trimSpace s) (mkD Kind.require)
    exact requireTail_modes _ _ hinv.2.1 hinv.2.2.1

theorem parseMust_log_ret (s : List Char) :
    (parseMust s).log = true → (parseMust s).ret = true := by
  unfold parseMust mustFlags
  exact (mustFlagsF_inv ((trimSpace s).length + 1) (trimSpace s) (mkD Kind.must)).2.2.2.2
    (fun hx => hx)

theorem parseMust_vars_expr (s : List Char) :
    (parseMust s).vars = [] ∧ (parseMust s).expr = [] := by
  unfold parseMust mustFlags
  have hinv := mustFlagsF_inv ((trimSpace s).length + 1) (trimSpace s) (mkD Kind.must)
  exact ⟨hinv.2.1, hinv.2.2.1⟩

theorem ParseDirective_shape (t : List Char) (d : Directive)
    (h : ParseDirective t = some d) :
    d = parseRequire ((stripMarkers t).drop 8) ∨
    d = parseMust ((stripMarkers t).drop 5) := by
  unfold ParseDirective at h
  split at h
  · exact absurd h (by simp)
  · split at h
    · injection h with h'; exact Or.inl h'.symm
    · split at h
      · injection h with h'; exact Or.inr h'.symm
      · exact absurd h (by simp)

/-! ### Claim C1 -/

/-- C1, counterexample: on the input `// @require` — a Precondition comment
with empty text after the keyword — `ParseDirective` does not return none;
it returns a bare `Require` directive, so the claim "the parser returns
none" is false at this input. -/
theorem emptyRequire_counterexample :
    ParseDirective ("// @require".toList) = some (mkD Kind.require) ∧
    ParseDirective ("// @require".toList) ≠ none := by
  constructor
  · decide
  · decide

/-- C1 (amended): for every comment whose stripped content is exactly the
keyword `@require` with nothing after it, `ParseDirective` returns a bare
`Require` directive (no flags, no variables, empty expression and
message) rather than none. -/
theorem emptyRequire_bare_directive (t : List Char)
    (h : stripMarkers t = "@require".toList) :
    ParseDirective t = some (mkD Kind.require) := by
  unfold ParseDirective
  rw [h]
  decide

/-- Witness for C1: the hypothesis of `emptyRequire_bare_directive` is
satisfiable, e.g. by a padded line comment. -/
theorem emptyRequire_bare_directive_witness :
    stripMarkers ("  //   @require ".toList) = "@require".toList ∧
    ParseDirective ("  //   @require ".toList) = some (mkD Kind.require) :=
  ⟨by decide, emptyRequire_bare_directive _ (by decide)⟩

/-! ### Claim C3 -/

/-- C3, counterexample: `// @require -nd` parses to a directive in which
neither the non-defaulted mode (`vars = []`) nor the expression mode
(`expr = []`) is active, yet its kind is `require`, not `must` — so
"a directive with neither mode active is a bare ErrorCheck" is false,
and so is "exactly one mode is active". -/
theorem neither_mode_counterexample :
    ParseDirective ("// @require -nd".toList) =
      some ⟨Kind.require, true, false, false, [], [], [], []⟩ := by
  decide

/-- C3 (amended): every directive returned by `ParseDirective` has AT MOST
one of the two modes active: its `vars` list (non-defaulted mode) and its
`expr` text (expression mode) are never both non-empty.  A directive with
neither mode active need not be an ErrorCheck: bare `@require` forms also
produce one. -/
theorem modes_mutually_exclusive (t : List Char) (d : Directive)
    (h : ParseDirective t = some d) : d.vars = [] ∨ d.expr = [] := by
  rcases ParseDirective_shape t d h with hd | hd
  · rw [hd]; exact parseRequire_modes _
  · rw [hd]; exact Or.inl (parseMust_vars_expr _).1

/-- Witness for C3: `modes_mutually_exclusive` applied at a concrete
parsed directive. -/
theorem modes_mutually_exclusive_witness :
    (⟨Kind.require, true, false, false, [], ["x".toList], [], []⟩ : Directive).vars = [] ∨
    (⟨Kind.require, true, false, false, [], ["x".toList], [], []⟩ : Directive).expr = [] :=
  modes_mutually_exclusive ("// @require -nd x".toList) _ (by decide)

/-! ### Claim C4 -/

/-- C4: for every comment string whose content, after delimiter and
whitespace stripping, begins with neither recognized keyword
(`@require`, `@must`), `ParseDirective` returns none. -/
theorem unrecognized_keyword_none (t : List Char)
    (h1 : ("@require".toList).isPrefixOf (stripMarkers t) = false)
    (h2 : ("@must".toList).isPrefixOf (stripMarkers t) = false) :
    ParseDirective t = none := by
  unfold ParseDirective
  by_cases h0 : ("@".toList).isPrefixOf (stripMarkers t) = true
  · rw [if_neg (not_not_intro h0), if_neg (by rw [h1]; decide), if_neg (by rw [h2]; decide)]
  · rw [if_pos h0]

/-- Witness for C4: an unrecognized `@`-prefixed comment and an ordinary
comment both map to none. -/
theorem unrecognized_keyword_none_witness :
    ParseDirective ("// @unknown directive".toList) = none ∧
    ParseDirective ("// regular comment".toList) = none :=
  ⟨unrecognized_keyword_none _ (by decide) (by decide),
    unrecognized_keyword_none _ (by decide) (by decide)⟩

/-! ### Claim C5 -/

/-- C5: for every input on which `ParseDirective` returns a directive, if
the directive's `log` flag is set then its `ret` flag is set: parsing
`-log` always sets return-on-violation as a side effect, for both
Precondition and ErrorCheck directives. -/
theorem log_implies_ret (t : List Char) (d : Directive)
    (h : ParseDirective t = some d) (hl : d.log = true) : d.ret = true := by
  rcases ParseDirective_shape t d h with hd | hd
  · subst hd; exact parseRequire_log_ret _ hl
  · subst hd; exact parseMust_log_ret _ hl

/-- Witness for C5: `log_implies_ret` applied to the directives parsed
from `// @require -log x > 0` and `// @must -log`. -/
theorem log_implies_ret_witness :
    (⟨Kind.require, false, true, true, [], [], "x > 0".toList, []⟩ : Directive).ret = true ∧
    (⟨Kind.must, false, true, true, [], [], [], []⟩ : Directive).ret = true :=
  ⟨log_implies_ret ("// @require -log x > 0".toList) _ (by decide) rfl,
    log_implies_ret ("// @must -log".toList) _ (by decide) rfl⟩

/-! ### Claim C10 -/

theorem isPrefixOf_cons_ne {a b : Char} (as bs : List Char) (h : a ≠ b) :
    (a :: as).isPrefixOf (b :: bs) = false := by
  rw [isPrefixOf_cons₂]
  simp [h]

/-- C10: `ParseDirective` does not require comment delimiters: a trimmed
string that begins with a directive keyword but carries no `//` or `/*`
marker parses to exactly the same result as the same text wrapped in a
line comment. -/
theorem delimiters_optional (s : List Char)
    (ht : trimSpace s = s)
    (hk : ("@require".toList).isPrefixOf s = true ∨
          ("@must".toList).isPrefixOf s = true) :
    ParseDirective (("// ".toList) ++ s) = ParseDirective s := by
  have hhead : s.head? = some '@' := by
    rcases hk with h | h
    · exact @isPrefixOf_head '@' ("require".toList) _ h
    · exact @isPrefixOf_head '@' ("must".toList) _ h
  have hs_ne : s ≠ [] := by
    intro he
    rw [he] at hhead
    simp at hhead
  obtain ⟨t0, rfl⟩ : ∃ t0, s = '@' :: t0 := by
    cases s with
    | nil => exact absurd rfl hs_ne
    | cons a t =>
      have : a = '@' := by simpa using hhead
      exact ⟨t, by rw [this]⟩
  have h1 : trimSpace (("// ".toList) ++ '@' :: t0) = ("// ".toList) ++ '@' :: t0 := by
    apply trimSpace_eq_self
    · intro c hc
      have hx : ((("// ".toList) ++ '@' :: t0)).head? = some '/' := rfl
      rw [hx] at hc
      cases hc
      decide
    · intro c hc
      rw [getLast?_append_right _ _ (by simp)] at hc
      exact trimSpace_self_getLast ht hc
  have h2 : stripMarkers (("// ".toList) ++ '@' :: t0) = '@' :: t0 := by
    unfold stripMarkers
    rw [h1]
    rw [if_pos (by
      rw [show (("// ".toList) ++ '@' :: t0) = ("//".toList) ++ (' ' :: '@' :: t0) from rfl]
      exact isPrefixOf_append_self _ _)]
    rw [show ((("// ".toList) ++ '@' :: t0)).drop 2 = ' ' :: '@' :: t0 from rfl]
    rw [trimSpace_cons_space (by decide)]
    exact ht
  have hsl : ("//".toList).isPrefixOf ('@' :: t0) = false := by
    rw [show ("//".toList) = '/' :: ['/'] from rfl]
    exact isPrefixOf_cons_ne _ _ (by decide)
  have hbl : ("/*".toList).isPrefixOf ('@' :: t0) = false := by
    rw [show ("/*".toList) = '/' :: ['*'] from rfl]
    exact isPrefixOf_cons_ne _ _ (by decide)
  have h3 : stripMarkers ('@' :: t0) = '@' :: t0 := by
    unfold stripMarkers
    rw [ht]
    rw [if_neg (by rw [hsl]; decide), if_neg (by rw [hbl]; decide)]
  unfold ParseDirective
  rw [h2, h3]

/-- Witness for C10: the bare text `@require x > 0` parses identically to
`// @require x > 0`. -/
theorem delimiters_optional_witness :
    ParseDirective (("// ".toList) ++ ("@require x > 0".toList)) =
      ParseDirective ("@require x > 0".toList) :=
  delimiters_optional ("@require x > 0".toList) (by decide) (Or.inl (by decide))

/-! ### Claim C9: the keyword scan of directive.go

directive.go's `ParseDirective` selects the directive keyword by ranging
over a Go map (`for kw, k := range keywords`), whose iteration order is
unspecified.  We model the scan as a first-match search over an explicit
association list and prove that any iteration order that is a permutation
of the keyword set yields the same result, because at most one keyword can
be a prefix of a given comment.  contract.go's `ParseDirective` is a pure
function of its input with no map iteration at all, so its determinism is
definitional. -/

/-- `DirectiveKind` from directive.go. -/
inductive DirectiveKind where
  | kindRequire : DirectiveKind
  | kindMust : DirectiveKind
  | kindExpect : DirectiveKind
  | kindEnsure : DirectiveKind
deriving DecidableEq, Repr

/-- The `keywords` map of directive.go, as an association list. -/
def keywords : List (List Char × DirectiveKind) :=
  [("@require".toList, DirectiveKind.kindRequire),
   ("@must".toList, DirectiveKind.kindMust),
   ("@expect".toList, DirectiveKind.kindExpect),
   ("@ensure".toList, DirectiveKind.kindEnsure)]

/-- The keyword-selection loop of directive.go's `ParseDirective`
(lines 23-29): the first entry of the iteration order whose keyword is a
prefix of the stripped comment, if any. -/
def keywordScan (order : List (List Char × DirectiveKind)) (s : List Char) :
    Option (List Char × DirectiveKind) :=
  order.find? (fun e => e.1.isPrefixOf s)

theorem isPrefixOf_nil_left (l : List Char) : List.isPrefixOf [] l = true := by
  cases l <;> rfl

theorem isPrefixOf_or :
    ∀ (s l₁ l₂ : List Char), l₁.isPrefixOf s = true → l₂.isPrefixOf s = true →
      l₁.isPrefixOf l₂ = true ∨ l₂.isPrefixOf l₁ = true := by
  intro s
  induction s with
  | nil =>
    intro l₁ l₂ h₁ _
    cases l₁ with
    | nil => exact Or.inl (isPrefixOf_nil_left _)
    | cons a as => simp [List.isPrefixOf] at h₁
  | cons c cs ih =>
    intro l₁ l₂ h₁ h₂
    cases l₁ with
    | nil => exact Or.inl (isPrefixOf_nil_left _)
    | cons a as =>
      cases l₂ with
      | nil => exact Or.inr (isPrefixOf_nil_left _)
      | cons b bs =>
        rw [isPrefixOf_cons₂, Bool.and_eq_true, beq_iff_eq] at h₁ h₂
        rcases ih as bs h₁.2 h₂.2 with h | h
        · left
          rw [isPrefixOf_cons₂, Bool.and_eq_true, beq_iff_eq]
          exact ⟨h₁.1.trans h₂.1.symm, h⟩
        · right
          rw [isPrefixOf_cons₂, Bool.and_eq_true, beq_iff_eq]
          exact ⟨h₂.1.trans h₁.1.symm, h⟩

theorem find?_perm_of_unique {α : Type} (p : α → Bool) (l l' : List α)
    (hp : l.Perm l') (hu : ∀ a ∈ l, ∀ b ∈ l, p a = true → p b = true → a = b) :
    l.find? p = l'.find? p := by
  cases h1 : l.find? p with
  | some a =>
    have hpa : p a = true := List.find?_some h1
    have hal : a ∈ l := List.mem_of_find?_eq_some h1
    cases h2 : l'.find? p with
    | some b =>
      have hpb : p b = true := List.find?_some h2
      have hbl : b ∈ l := hp.mem_iff.mpr (List.mem_of_find?_eq_some h2)
      rw [hu a hal b hbl hpa hpb]
    | none =>
      rw [List.find?_eq_none] at h2
      exact absurd hpa (h2 a (hp.mem_iff.mp hal))
  | none =>
    rw [List.find?_eq_none] at h1
    cases h2 : l'.find? p with
    | some b =>
      have hpb : p b = true := List.find?_some h2
      have hbl : b ∈ l := hp.mem_iff.mpr (List.mem_of_find?_eq_some h2)
      exact absurd hpb (h1 b hbl)
    | none => rfl

theorem keywords_unique (s : List Char) :
    ∀ e₁ ∈ keywords, ∀ e₂ ∈ keywords,
      e₁.1.isPrefixOf s = true → e₂.1.isPrefixOf s = true → e₁ = e₂ := by
  have hconc : ∀ e₁ ∈ keywords, ∀ e₂ ∈ keywords,
      (e₁.1.isPrefixOf e₂.1 = true ∨ e₂.1.isPrefixOf e₁.1 = true) → e₁ = e₂ := by
    decide
  intro e₁ h₁ e₂ h₂ hp₁ hp₂
  exact hconc e₁ h₁ e₂ h₂ (isPrefixOf_or s e₁.1 e₂.1 hp₁ hp₂)

/-- C9: the keyword scan of directive.go's `ParseDirective` is
deterministic despite ranging over an unordered map: every iteration order
that is a permutation of the keyword set selects the same entry, because
at most one of the keywords `@require`, `@must`, `@expect`, `@ensure` can
be a prefix of a given stripped comment (and contract.go's
`ParseDirective` is a pure function, so calling it twice on identical
input trivially yields field-for-field identical results). -/
theorem keywordScan_order_independent
    (order : List (List Char × DirectiveKind)) (h : order.Perm keywords)
    (s : List Char) : keywordScan order s = keywordScan keywords s := by
  unfold keywordScan
  apply find?_perm_of_unique _ _ _ h
  intro a ha b hb hpa hpb
  exact keywords_unique s a (h.mem_iff.mp ha) b (h.mem_iff.mp hb) hpa hpb

/-- Witness for C9: the reversed iteration order is a permutation of the
keyword list and selects the same keyword on a concrete comment. -/
theorem keywordScan_order_independent_witness :
    (keywords.reverse).Perm keywords ∧
    keywordScan keywords.reverse ("@must -ret".toList) =
      keywordScan keywords ("@must -ret".toList) :=
  ⟨by decide, keywordScan_order_independent keywords.reverse (by decide) _⟩

/-! ### Rendering plumbing: parsing `// @require <body>` -/

theorem trimSpace_lit_append (pre p : List Char) (c : Char)
    (hpre : pre.head? = some c) (hc : isSpace c = false)
    (ht : trimSpace p = p) (hne : p ≠ []) :
    trimSpace (pre ++ p) = pre ++ p := by
  apply trimSpace_eq_self
  · intro c' hc'
    cases pre with
    | nil => simp at hpre
    | cons a t =>
      have ha : a = c := by simpa using hpre
      have hx : ((a :: t) ++ p).head? = some a := rfl
      rw [hx] at hc'
      cases hc'
      rw [ha]
      exact hc
  · intro c' hc'
    rw [getLast?_append_right _ _ hne] at hc'
    exact trimSpace_self_getLast ht hc'

theorem parseRequire_space (body : List Char) :
    parseRequire (' ' :: body) = parseRequire body := by
  unfold parseRequire
  rw [trimSpace_cons_space (by decide)]

theorem ParseDirective_require_body (body : List Char)
    (ht : trimSpace body = body) (hne : body ≠ []) :
    ParseDirective (("// @require ".toList) ++ body) =
      some (parseRequire body) := by
  have hstrip : stripMarkers (("// @require ".toList) ++ body) =
      ("@require ".toList) ++ body := by
    unfold stripMarkers
    have h1 : trimSpace (("// @require ".toList) ++ body) =
        ("// @require ".toList) ++ body :=
      trimSpace_lit_append _ _ '/' rfl (by decide) ht hne
    rw [h1]
    rw [if_pos (by
      rw [show (("// @require ".toList) ++ body) =
        ("//".toList) ++ ((" @require ".toList) ++ body) from rfl]
      exact isPrefixOf_append_self _ _)]
    rw [show ((("// @require ".toList) ++ body)).drop 2 =
      ' ' :: (("@require ".toList) ++ body) from rfl]
    rw [trimSpace_cons_space (by decide)]
    exact trimSpace_lit_append _ _ '@' rfl (by decide) ht hne
  unfold ParseDirective
  rw [hstrip]
  rw [if_neg (not_not_intro (by
    rw [show (("@require ".toList) ++ body) =
      ("@".toList) ++ (("require ".toList) ++ body) from rfl]
    exact isPrefixOf_append_self _ _))]
  rw [if_pos (by
    rw [show (("@require ".toList) ++ body) =
      ("@require".toList) ++ (' ' :: body) from rfl]
    exact isPrefixOf_append_self _ _)]
  rw [show ((("@require ".toList) ++ body)).drop 8 = ' ' :: body from rfl,
    parseRequire_space]

/-! ### Claim C8 -/

/-- The specification's description of the `-nd` variable list: split the
remaining text at commas, trim every entry, drop the empty entries,
keeping the original order. -/
def commaSegments (t : List Char) : List (List Char) :=
  ((splitAll ',' t).map trimSpace).filter (fun v => !v.isEmpty)

theorem foldl_trim_filter (l : List (List Char)) :
    ∀ acc : List (List Char),
      l.foldl (fun acc v => if trimSpace v = [] then acc else acc ++ [trimSpace v]) acc =
      acc ++ (l.map trimSpace).filter (fun v => !v.isEmpty) := by
  induction l with
  | nil => intro acc; simp
  | cons a t ih =>
    intro acc
    rw [List.foldl_cons, List.map_cons, List.filter_cons]
    by_cases ha : trimSpace a = []
    · rw [if_pos ha, ha]
      simp only [List.isEmpty_nil, Bool.not_true, if_neg (by decide : ¬ (false = true))]
      exact ih acc
    · rw [if_neg ha]
      have hne : (trimSpace a).isEmpty = false := by
        cases hta : trimSpace a with
        | nil => exact absurd hta ha
        | cons x xs => rfl
      rw [hne]
      simp only [Bool.not_false, if_pos rfl]
      rw [ih (acc ++ [trimSpace a]), List.append_assoc]
      rfl

theorem ndVarsLoop_eq (rest : List Char) : ndVarsLoop rest = commaSegments rest := by
  unfold ndVarsLoop commaSegments
  rw [foldl_trim_filter]
  rfl

/-- C8: for a Precondition directive with the `-nd` flag and non-empty
remaining text, the resulting `vars` field is exactly the comma-split of
the remaining text with each entry whitespace-trimmed and empty entries
dropped, in the original left-to-right order. -/
theorem nd_vars_spec (p : List Char)
    (ht : trimSpace p = p) (hne : p ≠ [])
    (h1 : ("-nd".toList).isPrefixOf p = false)
    (h2 : ("-ret".toList).isPrefixOf p = false)
    (h3 : ("-log".toList).isPrefixOf p = false) :
    ParseDirective (("// @require -nd ".toList) ++ p) =
      some ⟨Kind.require, true, false, false, [], commaSegments p, [], []⟩ := by
  have hbt : trimSpace (("-nd ".toList) ++ p) = ("-nd ".toList) ++ p :=
    trimSpace_lit_append _ _ '-' rfl (by decide) ht hne
  rw [show ("// @require -nd ".toList) ++ p =
    ("// @require ".toList) ++ (("-nd ".toList) ++ p) from rfl]
  rw [ParseDirective_require_body _ hbt (by simp)]
  unfold parseRequire
  rw [hbt, if_neg (by simp)]
  have hstep : requireFlags (("-nd ".toList) ++ p) (mkD Kind.require) =
      (⟨Kind.require, true, false, false, [], [], [], []⟩, p) := by
    rw [requireFlags_nd _ (by
      rw [show (("-nd ".toList) ++ p) = ("-nd".toList) ++ (' ' :: p) from rfl]
      exact isPrefixOf_append_self _ _)]
    rw [show ((("-nd ".toList) ++ p)).drop 3 = ' ' :: p from rfl,
      trimSpace_cons_space (by decide), ht]
    exact requireFlags_done _ h1 h2 h3
  rw [hstep]
  unfold requireTail
  rw [if_neg hne, if_pos rfl, ndVarsLoop_eq]

/-- Witness for C8: `@require -nd` with the list `a ,, b` yields exactly
the trimmed non-empty entries `a`, `b`. -/
theorem nd_vars_spec_witness :
    ParseDirective (("// @require -nd ".toList) ++ ("a ,, b".toList)) =
      some ⟨Kind.require, true, false, false, [],
        commaSegments ("a ,, b".toList), [], []⟩ :=
  nd_vars_spec ("a ,, b".toList) (by decide) (by decide) (by decide) (by decide)
    (by decide)

/-! ### Claim C2 -/

/-- The message rule actually implemented by `parseRequire` (amended
specification): if the text after the LAST comma anywhere in the remaining
text trims to a candidate of length at least 2 that begins and ends with a
double quote, the candidate minus its delimiting quotes becomes `Message`
and the trimmed text before that comma becomes `Expr`; otherwise the whole
remaining text becomes `Expr` and `Message` stays empty. -/
def exprMessageSpec (t : List Char) : List Char × List Char :=
  match lastIndexOf ',' t with
  | some idx =>
    if 2 ≤ (trimSpace (t.drop (idx + 1))).length ∧
        (trimSpace (t.drop (idx + 1))).head? = some '"' ∧
        (trimSpace (t.drop (idx + 1))).getLast? = some '"' then
      (trimSpace (t.take idx), ((trimSpace (t.drop (idx + 1))).drop 1).dropLast)
    else (t, [])
  | none => (t, [])

/-- C2, counterexample: for the expression-mode remaining text
`x == "a," + "b"` the final TOP-LEVEL comma-separated token is the whole
text (its only comma lies inside a string literal, as the quote-aware
splitter certifies), and it is not a double-quoted literal, so the claim
requires the whole text to become `Expr` with no `Message`; but
`ParseDirective` checks the text after the last comma ANYWHERE, finds the
quote-delimited candidate `" + "b"` and instead yields the truncated
`Expr` together with a non-empty `Message`. -/
theorem message_lastComma_counterexample :
    splitTopLevelCommas ("x == \"a,\" + \"b\"".toList) =
      [("x == \"a,\" + \"b\"".toList)] ∧
    ParseDirective (("// @require ".toList) ++ ("x == \"a,\" + \"b\"".toList)) =
      some ⟨Kind.require, false, false, false, [], [],
        ("x == \"a".toList), (" + \"b".toList)⟩ ∧
    (" + \"b".toList) ≠ ([] : List Char) ∧
    ("x == \"a".toList) ≠ ("x == \"a,\" + \"b\"".toList) :=
  ⟨by decide, by decide, by decide, by decide⟩

/-- C2 (amended): for every expression-mode Precondition directive,
`Message` is set if and only if the text after the last comma anywhere in
the remaining text (not the last top-level comma) trims to a candidate of
length ≥ 2 delimited by double quotes; in that case `Expr` is the trimmed
text before that comma and `Message` is the candidate minus its quotes,
and otherwise the entire remaining text becomes `Expr`. -/
theorem exprMessage_lastComma_rule (p : List Char)
    (ht : trimSpace p = p) (hne : p ≠ [])
    (h1 : ("-nd".toList).isPrefixOf p = false)
    (h2 : ("-ret".toList).isPrefixOf p = false)
    (h3 : ("-log".toList).isPrefixOf p = false) :
    ParseDirective (("// @require ".toList) ++ p) =
      some ⟨Kind.require, false, false, false, [], [],
        (exprMessageSpec p).1, (exprMessageSpec p).2⟩ := by
  rw [ParseDirective_require_body _ ht hne]
  unfold parseRequire
  rw [ht, if_neg hne, requireFlags_done _ h1 h2 h3]
  unfold requireTail exprMessageSpec
  rw [if_neg hne, if_neg (by decide : ¬ ((mkD Kind.require).nd = true))]
  cases hL : lastIndexOf ',' p with
  | none => rfl
  | some idx =>
    dsimp only
    by_cases hq : 2 ≤ (trimSpace (p.drop (idx + 1))).length ∧
        (trimSpace (p.drop (idx + 1))).head? = some '"' ∧
        (trimSpace (p.drop (idx + 1))).getLast? = some '"'
    · rw [if_pos hq, if_pos hq]
      rfl
    · rw [if_neg hq, if_neg hq]
      rfl

/-- Witness for C2: the claim's own example `amount > 0, "positive"`,
which yields `Expr = amount > 0` and `Message = positive`. -/
theorem exprMessage_lastComma_rule_witness :
    ParseDirective (("// @require ".toList) ++ ("amount > 0, \"positive\"".toList)) =
      some ⟨Kind.require, false, false, false, [], [],
        (exprMessageSpec ("amount > 0, \"positive\"".toList)).1,
        (exprMessageSpec ("amount > 0, \"positive\"".toList)).2⟩ ∧
    exprMessageSpec ("amount > 0, \"positive\"".toList) =
      ("amount > 0".toList, "positive".toList) :=
  ⟨exprMessage_lastComma_rule _ (by decide) (by decide) (by decide) (by decide)
      (by decide),
    by decide⟩

/-! ### Claim C7 -/

/-- A character that affects neither the bracket depth nor the
string-literal state of `splitTopLevelCommas`. -/
def plainChar (c : Char) : Bool :=
  !(c = '"' || c = '(' || c = '[' || c = '\x7b' ||
    c = ')' || c = ']' || c = '\x7d')

theorem splitAll_no_sep (c : Char) :
    ∀ l : List Char, c ∉ l → splitAll c l = [l] := by
  intro l
  induction l with
  | nil => intro _; rfl
  | cons a t ih =>
    intro h
    have ha : ¬ a = c := fun he => h (by rw [he]; exact List.mem_cons_self _ _)
    have ht : c ∉ t := fun hm => h (List.mem_cons_of_mem _ hm)
    simp only [splitAll]
    rw [if_neg ha, ih ht]

theorem splitAll_append_sep (c : Char) :
    ∀ (l r : List Char), c ∉ l → splitAll c (l ++ c :: r) = l :: splitAll c r := by
  intro l
  induction l with
  | nil =>
    intro r _
    simp only [List.nil_append, splitAll]
    rw [if_pos trivial]
  | cons a t ih =>
    intro r h
    have ha : ¬ a = c := fun he => h (by rw [he]; exact List.mem_cons_self _ _)
    have ht : c ∉ t := fun hm => h (List.mem_cons_of_mem _ hm)
    simp only [List.cons_append, splitAll]
    rw [if_neg ha]
    simp only [List.append_eq]
    rw [ih r ht]

theorem commaSegments_nosep (l : List Char) (h : ',' ∉ l) :
    commaSegments l =
      if trimSpace l = [] then [] else [trimSpace l] := by
  unfold commaSegments
  rw [splitAll_no_sep _ _ h]
  by_cases ht : trimSpace l = []
  · rw [if_pos ht]
    simp [ht]
  · rw [if_neg ht]
    have hne : (trimSpace l).isEmpty = false := by
      cases hta : trimSpace l with
      | nil => exact absurd hta ht
      | cons x xs => rfl
    simp [hne]

theorem commaSegments_append_sep (l r : List Char) (h : ',' ∉ l) :
    commaSegments (l ++ ',' :: r) =
      (if trimSpace l = [] then [] else [trimSpace l]) ++ commaSegments r := by
  unfold commaSegments
  rw [splitAll_append_sep _ _ _ h, List.map_cons, List.filter_cons]
  by_cases ht : trimSpace l = []
  · rw [if_pos ht, ht]
    simp
  · rw [if_neg ht]
    have hne : (trimSpace l).isEmpty = false := by
      cases hta : trimSpace l with
      | nil => exact absurd hta ht
      | cons x xs => rfl
    rw [hne]
    simp

theorem splitAux_plain :
    ∀ (s cur : List Char) (parts : List (List Char)),
      (∀ ch ∈ s, plainChar ch = true) → ',' ∉ cur →
      splitAux s 0 false false cur parts =
        parts ++ commaSegments (cur.reverse ++ s) := by
  intro s
  induction s with
  | nil =>
    intro cur parts _ hcur
    have hrev : ',' ∉ cur.reverse := by simpa using hcur
    simp only [splitAux, List.append_nil]
    rw [commaSegments_nosep _ hrev]
    by_cases ht : trimSpace cur.reverse = []
    · rw [if_pos ht, if_pos ht]
      simp
    · rw [if_neg ht, if_neg ht]
  | cons ch cs ih =>
    intro cur parts hs hcur
    have hch : plainChar ch = true := hs ch (List.mem_cons_self _ _)
    have hcs : ∀ c ∈ cs, plainChar c = true := fun c hc => hs c (List.mem_cons_of_mem _ hc)
    have hfacts : ¬ ch = '"' ∧ ¬ ch = '(' ∧ ¬ ch = '[' ∧ ¬ ch = '\x7b' ∧
        ¬ ch = ')' ∧ ¬ ch = ']' ∧ ¬ ch = '\x7d' := by
      simpa [plainChar, and_assoc] using hch
    obtain ⟨hq, ho1, ho2, ho3, hc1, hc2, hc3⟩ := hfacts
    simp only [splitAux]
    rw [if_neg (by decide : ¬ ((false : Bool) = true)),
      if_neg (by simp : ¬ ((decide (ch = '\\') && false) = true)),
      if_neg hq,
      if_neg (by decide : ¬ ((false : Bool) = true)),
      if_neg (by simp [ho1, ho2, ho3]),
      if_neg (by simp [hc1, hc2, hc3])]
    by_cases hcm : ch = ','
    · rw [if_pos hcm, if_pos trivial]
      have hrev : ',' ∉ cur.reverse := by simpa using hcur
      rw [ih [] _ hcs (by simp)]
      rw [show cur.reverse ++ ch :: cs = (cur.reverse ++ [ch]) ++ cs by simp]
      rw [hcm]
      rw [show (cur.reverse ++ [',']) ++ cs = cur.reverse ++ ',' :: cs by simp]
      rw [commaSegments_append_sep _ _ hrev]
      simp only [List.reverse_nil, List.nil_append, ← List.append_assoc]
      by_cases htr : trimSpace cur.reverse = []
      · rw [if_pos htr, if_pos htr]
        simp
      · rw [if_neg htr, if_neg htr]
    · rw [if_neg hcm]
      rw [ih (ch :: cur) _ hcs (by
        intro hm
        rcases List.mem_cons.mp hm with he | hm2
        · exact hcm he.symm
        · exact hcur hm2)]
      rw [show (ch :: cur).reverse ++ cs = cur.reverse ++ ch :: cs by simp]

/-- C7: the `-ret(...)` argument splitter.  (1) On text free of brackets,
braces and string literals it splits exactly at every comma (trimmed,
empty entries dropped); nesting and quoting only suppress splits, as the
concrete cases show: (2) the claim's example argument text of
`-ret(nil, fmt.Errorf("bad id: %s", id))` splits into exactly the two
expressions `nil` and `fmt.Errorf("bad id: %s", id)` — also end-to-end
through `ParseDirective` — while (3) a comma inside a quoted literal and
(4) commas inside nested calls do not split. -/
theorem splitTopLevelCommas_spec :
    (∀ s : List Char, (∀ c ∈ s, plainChar c = true) →
      splitTopLevelCommas s = commaSegments s) ∧
    splitTopLevelCommas ("nil, fmt.Errorf(\"bad id: %s\", id)".toList) =
      [("nil".toList), ("fmt.Errorf(\"bad id: %s\", id)".toList)] ∧
    ParseDirective
        ("// @require -ret(nil, fmt.Errorf(\"bad id: %s\", id)) len(id) > 0".toList) =
      some ⟨Kind.require, false, true, false,
        [("nil".toList), ("fmt.Errorf(\"bad id: %s\", id)".toList)], [],
        ("len(id) > 0".toList), []⟩ ∧
    splitTopLevelCommas ("\"hello, world\"".toList) = [("\"hello, world\"".toList)] ∧
    splitTopLevelCommas ("f(a, b), g(c, d)".toList) =
      [("f(a, b)".toList), ("g(c, d)".toList)] := by
  refine ⟨?_, by decide, by decide, by decide, by decide⟩
  intro s hs
  unfold splitTopLevelCommas
  rw [splitAux_plain s [] [] hs (by simp)]
  rfl

/-- Witness for C7: the universally quantified part of
`splitTopLevelCommas_spec` applied to the concrete plain text `a ,, b , c`. -/
theorem splitTopLevelCommas_spec_witness :
    splitTopLevelCommas ("a ,, b , c".toList) = commaSegments ("a ,, b , c".toList) :=
  splitTopLevelCommas_spec.1 ("a ,, b , c".toList) (by decide)

/-! ### Claim C6: flag tokens and their rendering -/

/-- One flag token of the directive grammar: `-nd`, bare `-ret`,
`-ret(args)`, or `-log`. -/
inductive RFlag where
  | nd : RFlag
  | ret : RFlag
  | retP : List Char → RFlag
  | log : RFlag
deriving DecidableEq, Repr

/-- The concrete text of one flag token. -/
def renderFlag : RFlag → List Char
  | RFlag.nd => "-nd".toList
  | RFlag.ret => "-ret".toList
  | RFlag.retP a => ("-ret(".toList) ++ a ++ (")".toList)
  | RFlag.log => "-log".toList

/-- A flag sequence rendered in front of a payload, every token followed
by a single space. -/
def renderFlags : List RFlag → List Char → List Char
  | [], p => p
  | f :: fs, p => renderFlag f ++ (' ' :: renderFlags fs p)

/-- The effect of one flag token on the directive under construction, as
performed by the flag loop of `parseRequire`. -/
def flagUpdate (d : Directive) : RFlag → Directive
  | RFlag.nd => {d with nd := true}
  | RFlag.ret => {d with ret := true}
  | RFlag.retP a => {d with ret := true, retExprs := splitTopLevelCommas a}
  | RFlag.log => {d with log := true, ret := true}

/-- The argument text of a `-ret(...)` token, if the flag is one. -/
def argOf : RFlag → Option (List Char)
  | RFlag.retP a => some a
  | _ => none

/-- Well-formed `-ret(...)` argument text: free of quotes, backslashes and
parentheses, and splitting into a non-empty expression list. -/
def goodArgsB (a : List Char) : Bool :=
  a.all (fun c => !(c = '"' || c = '\\' || c = '(' || c = ')')) &&
    !(splitTopLevelCommas a).isEmpty

/-- A flag token the loop consumes cleanly: any of `-nd`, `-ret`, `-log`,
or a `-ret(...)` whose argument text is well formed. -/
def goodFlagB : RFlag → Bool
  | RFlag.retP a => goodArgsB a
  | _ => true

/-- A payload that the flag loop does not mistake for a flag: trimmed,
non-empty, starting with no flag token and not with an opening
parenthesis. -/
def payloadOk (p : List Char) : Prop :=
  trimSpace p = p ∧ p ≠ [] ∧
  ("-nd".toList).isPrefixOf p = false ∧
  ("-ret".toList).isPrefixOf p = false ∧
  ("-log".toList).isPrefixOf p = false ∧
  p.head? ≠ some '('

theorem renderFlag_head (f : RFlag) : ∃ rest, renderFlag f = '-' :: rest := by
  cases f with
  | nd => exact ⟨_, rfl⟩
  | ret => exact ⟨_, rfl⟩
  | retP a => exact ⟨_, rfl⟩
  | log => exact ⟨_, rfl⟩

theorem renderFlags_ne_nil (fs : List RFlag) (p : List Char) (hne : p ≠ []) :
    renderFlags fs p ≠ [] := by
  cases fs with
  | nil => exact hne
  | cons f fs' =>
    obtain ⟨rest, hr⟩ := renderFlag_head f
    simp [renderFlags, hr]

theorem renderFlags_getLast (fs : List RFlag) (p : List Char) (hne : p ≠ []) :
    (renderFlags fs p).getLast? = p.getLast? := by
  induction fs with
  | nil => rfl
  | cons f fs' ih =>
    simp only [renderFlags]
    rw [getLast?_append_right _ _ (by simp)]
    rw [show (' ' :: renderFlags fs' p) = [' '] ++ renderFlags fs' p from rfl]
    rw [getLast?_append_right _ _ (renderFlags_ne_nil fs' p hne)]
    exact ih

theorem renderFlags_trimmed (fs : List RFlag) (p : List Char)
    (ht : trimSpace p = p) (hne : p ≠ []) :
    trimSpace (renderFlags fs p) = renderFlags fs p := by
  cases fs with
  | nil => exact ht
  | cons f fs' =>
    apply trimSpace_eq_self
    · intro c hc
      obtain ⟨rest, hr⟩ := renderFlag_head f
      have hx : (renderFlags (f :: fs') p).head? = some '-' := by
        simp only [renderFlags, hr]
        rfl
      rw [hx] at hc
      cases hc
      decide
    · intro c hc
      rw [renderFlags_getLast _ _ hne] at hc
      exact trimSpace_self_getLast ht hc

theorem renderFlags_not_paren (fs : List RFlag) (p : List Char)
    (hne : p ≠ []) (hpar : p.head? ≠ some '(') :
    ("(".toList).isPrefixOf (renderFlags fs p) = false := by
  cases fs with
  | nil =>
    cases p with
    | nil => exact absurd rfl hne
    | cons c t =>
      have hcc : ¬ ('(' : Char) = c := by
        intro he
        exact hpar (by rw [← he]; rfl)
      exact isPrefixOf_cons_ne _ _ hcc
  | cons f fs' =>
    obtain ⟨rest, hr⟩ := renderFlag_head f
    simp only [renderFlags, hr]
    exact isPrefixOf_cons_ne _ _ (by decide)

theorem nd_not_prefixOf_ret (x : List Char) :
    ("-nd".toList).isPrefixOf (("-ret".toList) ++ x) = false := by
  rw [show ("-ret".toList) ++ x = '-' :: 'r' :: 'e' :: 't' :: x from rfl,
    show ("-nd".toList) = '-' :: 'n' :: ['d'] from rfl,
    isPrefixOf_cons₂, isPrefixOf_cons_ne _ _ (by decide : ('n' : Char) ≠ 'r')]
  simp

theorem nd_not_prefixOf_log (x : List Char) :
    ("-nd".toList).isPrefixOf (("-log".toList) ++ x) = false := by
  rw [show ("-log".toList) ++ x = '-' :: 'l' :: 'o' :: 'g' :: x from rfl,
    show ("-nd".toList) = '-' :: 'n' :: ['d'] from rfl,
    isPrefixOf_cons₂, isPrefixOf_cons_ne _ _ (by decide : ('n' : Char) ≠ 'l')]
  simp

theorem ret_not_prefixOf_log (x : List Char) :
    ("-ret".toList).isPrefixOf (("-log".toList) ++ x) = false := by
  rw [show ("-log".toList) ++ x = '-' :: 'l' :: 'o' :: 'g' :: x from rfl,
    show ("-ret".toList) = '-' :: 'r' :: ['e', 't'] from rfl,
    isPrefixOf_cons₂, isPrefixOf_cons_ne _ _ (by decide : ('r' : Char) ≠ 'l')]
  simp

/-! ### `parseRetExprs` on a well-formed rendered argument list -/

theorem findClose_plain :
    ∀ (a : List Char) (tail : List Char) (i : Nat),
      (∀ c ∈ a, ¬ c = '"' ∧ ¬ c = '\\' ∧ ¬ c = '(' ∧ ¬ c = ')') →
      findClose (a ++ ')' :: tail) 1 false false i = some (i + a.length) := by
  intro a
  induction a with
  | nil =>
    intro tail i _
    simp [findClose]
  | cons c a' ih =>
    intro tail i hc
    obtain ⟨hq, hb, ho, hcl⟩ := hc c (List.mem_cons_self _ _)
    have h1 : ∀ x ∈ a', ¬ x = '"' ∧ ¬ x = '\\' ∧ ¬ x = '(' ∧ ¬ x = ')' :=
      fun x hx => hc x (List.mem_cons_of_mem _ hx)
    simp only [List.cons_append, findClose]
    simp only [Bool.and_false, if_neg (by decide : ¬ ((false : Bool) = true)),
      if_neg hq, if_neg ho, if_neg hcl]
    simp only [List.append_eq]
    rw [ih tail (i + 1) h1]
    simp only [List.length_cons, Option.some.injEq]
    omega

theorem parseRetExprs_good (a tail : List Char)
    (hg : goodArgsB a = true) :
    parseRetExprs ('(' :: (a ++ ')' :: tail)) =
      (splitTopLevelCommas a, tail, true) := by
  have hchars : ∀ c ∈ a, ¬ c = '"' ∧ ¬ c = '\\' ∧ ¬ c = '(' ∧ ¬ c = ')' := by
    have hcomp := (Bool.and_eq_true _ _).mp hg
    intro c hcm
    have hall := List.all_eq_true.mp hcomp.1 c hcm
    simpa [and_assoc] using hall
  have hsp : splitTopLevelCommas a ≠ [] := by
    have hcomp := (Bool.and_eq_true _ _).mp hg
    have h2 := hcomp.2
    intro he
    rw [he] at h2
    simp at h2
  have hfc : findClose ('(' :: (a ++ ')' :: tail)) 0 false false 0 =
      some (a.length + 1) := by
    simp only [findClose]
    simp only [Bool.and_false, if_neg (by decide : ¬ ((false : Bool) = true)),
      if_neg (by decide : ¬ (('(' : Char) = '"')),
      if_pos (by decide : ('(' : Char) = '(')]
    norm_num
    rw [findClose_plain a tail 1 hchars]
    simp [Nat.add_comm]
  simp only [parseRetExprs]
  rw [if_neg (by simp), hfc]
  dsimp only
  have htake : (('(' :: (a ++ ')' :: tail)).take (a.length + 1)).drop 1 = a := by
    rw [List.take_succ_cons, List.drop_one, List.tail_cons]
    rw [show a ++ ')' :: tail = a ++ ([')'] ++ tail) from rfl, ← List.append_assoc]
    rw [List.take_append_of_le_length (by simp)]
    rw [List.take_append_of_le_length (by simp), List.take_length]
  have hdrop : ('(' :: (a ++ ')' :: tail)).drop (a.length + 1 + 1) = tail := by
    rw [List.drop_succ_cons]
    rw [show a ++ ')' :: tail = (a ++ [')']) ++ tail by simp]
    rw [show a.length + 1 = (a ++ [')']).length by simp]
    exact List.drop_left _ _
  rw [htake, hdrop, if_neg hsp]

/-! ### The flag loop consumes a rendered flag sequence token by token -/

theorem requireFlags_render :
    ∀ (fs : List RFlag) (p : List Char) (d : Directive),
      fs.all goodFlagB = true → payloadOk p →
      requireFlags (renderFlags fs p) d = (fs.foldl flagUpdate d, p) := by
  intro fs
  induction fs with
  | nil =>
    intro p d _ hp
    obtain ⟨_, _, h1, h2, h3, _⟩ := hp
    simp only [renderFlags, List.foldl_nil]
    exact requireFlags_done d h1 h2 h3
  | cons f fs' ih =>
    intro p d hall hp
    obtain ⟨ht, hne, h1, h2, h3, hpar⟩ := hp
    have hfr : goodFlagB f = true ∧ fs'.all goodFlagB = true := by
      rw [List.all_cons, Bool.and_eq_true] at hall
      exact hall
    have hR : trimSpace (renderFlags fs' p) = renderFlags fs' p :=
      renderFlags_trimmed fs' p ht hne
    cases f with
    | nd =>
      simp only [renderFlags, renderFlag]
      rw [requireFlags_nd d (isPrefixOf_append_self _ _)]
      rw [show ((("-nd".toList) ++ (' ' :: renderFlags fs' p))).drop 3 =
        ' ' :: renderFlags fs' p from rfl]
      rw [trimSpace_cons_space (by decide), hR]
      rw [ih p _ hfr.2 ⟨ht, hne, h1, h2, h3, hpar⟩]
      rfl
    | ret =>
      simp only [renderFlags, renderFlag]
      rw [requireFlags_ret_bare d (nd_not_prefixOf_ret _) (isPrefixOf_append_self _ _)
        (by
          rw [show ((("-ret".toList) ++ (' ' :: renderFlags fs' p))).drop 4 =
            ' ' :: renderFlags fs' p from rfl]
          rw [trimSpace_cons_space (by decide), hR]
          exact renderFlags_not_paren fs' p hne hpar)]
      rw [show ((("-ret".toList) ++ (' ' :: renderFlags fs' p))).drop 4 =
        ' ' :: renderFlags fs' p from rfl]
      rw [trimSpace_cons_space (by decide), hR]
      rw [ih p _ hfr.2 ⟨ht, hne, h1, h2, h3, hpar⟩]
      rfl
    | log =>
      simp only [renderFlags, renderFlag]
      rw [requireFlags_log d (nd_not_prefixOf_log _) (ret_not_prefixOf_log _)
        (isPrefixOf_append_self _ _)]
      rw [show ((("-log".toList) ++ (' ' :: renderFlags fs' p))).drop 4 =
        ' ' :: renderFlags fs' p from rfl]
      rw [trimSpace_cons_space (by decide), hR]
      rw [ih p _ hfr.2 ⟨ht, hne, h1, h2, h3, hpar⟩]
      rfl
    | retP a =>
      have hga : goodArgsB a = true := hfr.1
      have hrend : renderFlags (RFlag.retP a :: fs') p =
          ("-ret".toList) ++ ('(' :: (a ++ ')' :: ' ' :: renderFlags fs' p)) := by
        simp [renderFlags, renderFlag, List.append_assoc]
      have hdrop4 : ((("-ret".toList) ++
          ('(' :: (a ++ ')' :: ' ' :: renderFlags fs' p)))).drop 4 =
          '(' :: (a ++ ')' :: ' ' :: renderFlags fs' p) := rfl
      have hXtrim : trimSpace ('(' :: (a ++ ')' :: ' ' :: renderFlags fs' p)) =
          '(' :: (a ++ ')' :: ' ' :: renderFlags fs' p) := by
        apply trimSpace_eq_self
        · intro c hcx
          have hx : (('(' : Char) :: (a ++ ')' :: ' ' :: renderFlags fs' p)).head? =
            some '(' := rfl
          rw [hx] at hcx
          cases hcx
          decide
        · intro c hcx
          rw [show ('(' :: (a ++ ')' :: ' ' :: renderFlags fs' p)) =
            (('(' :: a) ++ [')', ' ']) ++ renderFlags fs' p by simp] at hcx
          rw [getLast?_append_right _ _ (renderFlags_ne_nil fs' p hne)] at hcx
          rw [renderFlags_getLast _ _ hne] at hcx
          exact trimSpace_self_getLast ht hcx
      have hpe := parseRetExprs_good a (' ' :: renderFlags fs' p) hga
      rw [hrend]
      rw [requireFlags_ret_ok d (nd_not_prefixOf_ret _) (isPrefixOf_append_self _ _)
        (by
          rw [hdrop4, hXtrim]
          rw [show ("(".toList) = ['('] from rfl, isPrefixOf_cons₂]
          simp [isPrefixOf_nil_left])
        (by rw [hdrop4, hXtrim, hpe])]
      rw [hdrop4, hXtrim, hpe]
      dsimp only
      rw [trimSpace_cons_space (by decide), hR]
      rw [ih p _ hfr.2 ⟨ht, hne, h1, h2, h3, hpar⟩]
      rfl

/-! ### The flag-state fold is insensitive to reordering -/

/-- Whether the flag list contains `-nd`. -/
def hasNd (fs : List RFlag) : Bool :=
  fs.any (fun f => match f with | RFlag.nd => true | _ => false)

/-- Whether a flag sets `ret` (all but `-nd` do). -/
def setsRet : RFlag → Bool
  | RFlag.nd => false
  | _ => true

/-- Whether the flag list contains any `ret`-setting flag. -/
def hasRet (fs : List RFlag) : Bool := fs.any setsRet

/-- Whether the flag list contains `-log`. -/
def hasLog (fs : List RFlag) : Bool :=
  fs.any (fun f => match f with | RFlag.log => true | _ => false)

theorem getLast?_cons_some {α : Type} (b : α) (r : List α) :
    ∃ x, (b :: r).getLast? = some x := by
  rw [← List.head?_reverse]
  cases hrv : (b :: r).reverse with
  | nil => exact absurd (List.reverse_eq_nil_iff.mp hrv) (by simp)
  | cons c cs => exact ⟨c, rfl⟩

theorem foldl_flagUpdate_closed :
    ∀ (fs : List RFlag) (d : Directive),
      fs.foldl flagUpdate d =
        ⟨d.kind, d.nd || hasNd fs, d.ret || hasRet fs, d.log || hasLog fs,
         (match (fs.filterMap argOf).getLast? with
          | some a => splitTopLevelCommas a
          | none => d.retExprs),
         d.vars, d.expr, d.message⟩ := by
  intro fs
  induction fs with
  | nil =>
    intro d
    simp [hasNd, hasRet, hasLog]
  | cons f fs' ih =>
    intro d
    rw [List.foldl_cons, ih (flagUpdate d f)]
    cases f with
    | nd =>
      simp [flagUpdate, hasNd, hasRet, hasLog, argOf, List.any_cons,
        List.filterMap_cons, setsRet, Bool.or_assoc]
    | ret =>
      simp [flagUpdate, hasNd, hasRet, hasLog, argOf, List.any_cons,
        List.filterMap_cons, setsRet, Bool.or_assoc]
    | log =>
      simp [flagUpdate, hasNd, hasRet, hasLog, argOf, List.any_cons,
        List.filterMap_cons, setsRet, Bool.or_assoc]
    | retP a =>
      cases hfm : fs'.filterMap argOf with
      | nil =>
        simp [flagUpdate, hasNd, hasRet, hasLog, argOf, List.any_cons,
          List.filterMap_cons, setsRet, Bool.or_assoc, hfm]
      | cons b r =>
        simp only [flagUpdate, hasNd, hasRet, hasLog, argOf, List.any_cons,
          List.filterMap_cons, setsRet, Bool.or_assoc, hfm,
          List.getLast?_cons_cons]
        obtain ⟨x, hx⟩ := getLast?_cons_some b r
        simp [hx, List.any_cons, Bool.or_assoc]

theorem any_perm {α : Type} {l l' : List α} (h : l.Perm l') (p : α → Bool) :
    l.any p = l'.any p := by
  cases hA : l.any p with
  | true =>
    rcases List.any_eq_true.mp hA with ⟨a, ha, hpa⟩
    exact (List.any_eq_true.mpr ⟨a, h.mem_iff.mp ha, hpa⟩).symm
  | false =>
    cases hB : l'.any p with
    | false => rfl
    | true =>
      rcases List.any_eq_true.mp hB with ⟨a, ha, hpa⟩
      have hA2 : l.any p = true := List.any_eq_true.mpr ⟨a, h.mem_iff.mpr ha, hpa⟩
      rw [hA] at hA2
      exact absurd hA2 (by decide)

theorem all_perm {α : Type} {l l' : List α} (h : l.Perm l') (p : α → Bool) :
    l.all p = l'.all p := by
  cases hA : l.all p with
  | true =>
    have := List.all_eq_true.mp hA
    exact (List.all_eq_true.mpr (fun a ha => this a (h.mem_iff.mpr ha))).symm
  | false =>
    cases hB : l'.all p with
    | true =>
      have hmem := List.all_eq_true.mp hB
      have hA2 : l.all p = true :=
        List.all_eq_true.mpr (fun a ha => hmem a (h.mem_iff.mp ha))
      rw [hA] at hA2
      exact absurd hA2 (by decide)
    | false => rfl

theorem perm_eq_of_length_le_one {α : Type} {l l' : List α} (h : l.Perm l')
    (hl : l.length ≤ 1) : l = l' := by
  cases l with
  | nil => exact (List.Perm.eq_nil h.symm).symm
  | cons a t =>
    cases t with
    | cons b u => simp at hl
    | nil => exact (List.perm_singleton.mp h.symm).symm

theorem foldl_flagUpdate_perm (fs fs' : List RFlag) (d : Directive)
    (hperm : fs'.Perm fs) (hone : (fs.filterMap argOf).length ≤ 1) :
    fs'.foldl flagUpdate d = fs.foldl flagUpdate d := by
  rw [foldl_flagUpdate_closed, foldl_flagUpdate_closed]
  have hfm : (fs'.filterMap argOf).Perm (fs.filterMap argOf) := hperm.filterMap _
  have heq : fs'.filterMap argOf = fs.filterMap argOf :=
    perm_eq_of_length_le_one hfm (by rw [hfm.length_eq]; exact hone)
  unfold hasNd hasRet hasLog
  rw [heq, any_perm hperm, any_perm hperm, any_perm hperm]

/-! ### Claim C6 -/

/-- C6, counterexample: the comments `// @require -ret -log (x) > 0` and
`// @require -log -ret (x) > 0` — the same keyword, the same flag set
`{-ret, -log}` and the same payload expression `(x) > 0` with the flags
reordered — parse to different Directives: when bare `-ret` is the last
flag, the parenthesized payload is absorbed as its custom return
expression list. -/
theorem flag_order_counterexample :
    ParseDirective ("// @require -ret -log (x) > 0".toList) ≠
      ParseDirective ("// @require -log -ret (x) > 0".toList) := by
  decide

/-- C6 (amended): flag parsing is order-insensitive for every directive
comment built from the keyword, a sequence of flags drawn from `-nd`,
`-ret`, `-ret(...)`, `-log`, and a payload — provided at most one
`-ret(...)` flag occurs, its argument text is well formed (free of
quotes, backslashes and parentheses, splitting into a non-empty list),
and the payload does not itself begin with a flag token or an opening
parenthesis.  Under these conditions any reordering of the flags yields a
field-for-field identical Directive. -/
theorem flag_order_insensitive (fs fs' : List RFlag) (p : List Char)
    (hperm : fs'.Perm fs)
    (hone : (fs.filterMap argOf).length ≤ 1)
    (hall : fs.all goodFlagB = true)
    (hp : payloadOk p) :
    ParseDirective (("// @require ".toList) ++ renderFlags fs' p) =
      ParseDirective (("// @require ".toList) ++ renderFlags fs p) := by
  obtain ⟨ht, hne, h1, h2, h3, hpar⟩ := hp
  have hall' : fs'.all goodFlagB = true := by
    rw [all_perm hperm]
    exact hall
  have hb : trimSpace (renderFlags fs p) = renderFlags fs p :=
    renderFlags_trimmed _ _ ht hne
  have hb' : trimSpace (renderFlags fs' p) = renderFlags fs' p :=
    renderFlags_trimmed _ _ ht hne
  rw [ParseDirective_require_body _ hb' (renderFlags_ne_nil _ _ hne),
    ParseDirective_require_body _ hb (renderFlags_ne_nil _ _ hne)]
  congr 1
  unfold parseRequire
  rw [hb, hb', if_neg (renderFlags_ne_nil fs' p hne),
    if_neg (renderFlags_ne_nil fs p hne)]
  rw [requireFlags_render fs' p _ hall' ⟨ht, hne, h1, h2, h3, hpar⟩,
    requireFlags_render fs p _ hall ⟨ht, hne, h1, h2, h3, hpar⟩]
  rw [foldl_flagUpdate_perm fs fs' _ hperm hone]

/-- Witness for C6: the claim's example pair — `-ret(nil, ErrX) -nd` and
`-nd -ret(nil, ErrX)` before the variable list `a, b` — parse to the same
Directive. -/
theorem flag_order_insensitive_witness :
    ParseDirective (("// @require ".toList) ++
        renderFlags [RFlag.nd, RFlag.retP ("nil, ErrX".toList)] ("a, b".toList)) =
      ParseDirective (("// @require ".toList) ++
        renderFlags [RFlag.retP ("nil, ErrX".toList), RFlag.nd] ("a, b".toList)) :=
  flag_order_insensitive _ _ _ (by decide) (by decide) (by decide)
    ⟨by decide, by decide, by decide, by decide, by decide, by decide⟩

end Inco
